import Mathlib

/-! # Verification of the sqlh mapping layer

A shallow embedding of the sqlh package: the placeholder reindexer
(reindex.go), the tag mini-language (misc.go), the INSERT and UPDATE
statement builders (insert.go, update.go) and the row mapper /
aggregator (scan.go), together with proofs about the claims of the
specification.
-/

namespace Sqlh

/-! ## Decimal numerals (model of strconv.Atoi / strconv.Itoa)

The Go code converts between digit strings and integers with
`strconv.Atoi` and `strconv.Itoa`.  The captured text is always a run
of decimal digits and the converted numbers are non-negative, so the
embedding works with `Nat`.
-/

/-- The decimal digit character for a value below ten. -/
def digitChar (n : Nat) : Char := Char.ofNat (48 + n)

/-- The numeric value of a decimal digit character. -/
def charVal (c : Char) : Nat := c.toNat - 48

/-- Go's `'0' <= c && c <= '9'` digit test from the reindexer. -/
def isDigitB (c : Char) : Bool := decide ('0' ≤ c) && decide (c ≤ '9')

/-- The mathematical value of a run of decimal digits (unbounded). -/
def digitsVal (ds : List Char) : Nat := ds.foldl (fun a c => 10 * a + charVal c) 0

/-- The largest int64 value, `math.MaxInt64`: Go's `int` is 64 bits on
the platforms the package targets. -/
def maxInt64 : Nat := 9223372036854775807

/-- Model of `strconv.Atoi` on a run of decimal digits: the parse is
into a 64-bit int, so a run valued beyond `MaxInt64` comes back as
`MaxInt64` together with a range error — which reindex.go discards
(`n, _ := strconv.Atoi(...)`), keeping the saturated value. -/
def atoi (ds : List Char) : Nat := min (digitsVal ds) maxInt64

/-- Fueled helper for `itoa`; the fuel only serves structural recursion. -/
def itoaAux : Nat → Nat → List Char
  | 0, _ => []
  | fuel + 1, n => if n < 10 then [digitChar n] else itoaAux fuel (n / 10) ++ [digitChar (n % 10)]

/-- Model of `strconv.Itoa` on a non-negative number. -/
def itoa (n : Nat) : List Char := itoaAux (n + 1) n

theorem digitsVal_append (xs : List Char) (c : Char) :
    digitsVal (xs ++ [c]) = 10 * digitsVal xs + charVal c := by
  simp [digitsVal, List.foldl_append]

theorem charVal_digitChar (n : Nat) (h : n < 10) : charVal (digitChar n) = n := by
  interval_cases n <;> decide

theorem itoaAux_spec (fuel n : Nat) (h : n < fuel) : digitsVal (itoaAux fuel n) = n := by
  induction fuel generalizing n with
  | zero => omega
  | succ fuel ih =>
    by_cases hn : n < 10
    · simp only [itoaAux, if_pos hn]
      show digitsVal ([] ++ [digitChar n]) = n
      rw [digitsVal_append, charVal_digitChar n hn]
      simp [digitsVal]
    · simp only [itoaAux, if_neg hn]
      rw [digitsVal_append, ih (n / 10) (by omega),
        charVal_digitChar (n % 10) (Nat.mod_lt _ (by omega))]
      omega

/-- `itoa` round-trips through the unbounded digit value. -/
theorem digitsVal_itoa (n : Nat) : digitsVal (itoa n) = n :=
  itoaAux_spec (n + 1) n (Nat.lt_succ_self n)

/-- The parse saturates at `MaxInt64`. -/
theorem atoi_le_max (ds : List Char) : atoi ds ≤ maxInt64 := Nat.min_le_right _ _

/-- For an int64-representable value the Atoi of its numeral is the
value itself. -/
theorem atoi_itoa_of_le {n : Nat} (h : n ≤ maxInt64) : atoi (itoa n) = n := by
  unfold atoi
  rw [digitsVal_itoa]
  exact Nat.min_eq_left h

/-- Go's int addition on the non-negative sum `base + n`: the result
wraps around in int64. -/
def wrap64 (n : Nat) : Int :=
  ((n : Int) + 9223372036854775808) % 18446744073709551616 - 9223372036854775808

/-- Model of `strconv.Itoa` on an int64 value, which may have wrapped
to a negative number. -/
def itoaI (i : Int) : List Char := if i < 0 then '-' :: itoa i.natAbs else itoa i.toNat

theorem wrap64_eq_of_lt {n : Nat} (h : n < 9223372036854775808) : wrap64 n = n := by
  unfold wrap64
  have h1 : (0 : Int) ≤ (n : Int) + 9223372036854775808 := by positivity
  have h2 : (n : Int) + 9223372036854775808 < 18446744073709551616 := by
    have : (n : Int) < 9223372036854775808 := by exact_mod_cast h
    omega
  rw [Int.emod_eq_of_lt h1 h2]
  omega

theorem itoaI_ofNat (n : Nat) : itoaI (n : Int) = itoa n := by
  unfold itoaI
  rw [if_neg (not_lt.mpr (Int.natCast_nonneg n))]
  simp

theorem itoaAux_digits (fuel n : Nat) : (itoaAux fuel n).all isDigitB = true := by
  induction fuel generalizing n with
  | zero => rfl
  | succ fuel ih =>
    by_cases hn : n < 10
    · simp only [itoaAux, if_pos hn, List.all_cons, List.all_nil, Bool.and_true]
      have : n % 10 = n := Nat.mod_eq_of_lt hn
      have h10 : n % 10 < 10 := Nat.mod_lt _ (by omega)
      rw [this] at h10
      interval_cases n <;> decide
    · simp only [itoaAux, if_neg hn, List.all_append, ih, Bool.true_and,
        List.all_cons, List.all_nil, Bool.and_true]
      have h10 : n % 10 < 10 := Nat.mod_lt _ (by omega)
      interval_cases h : (n % 10) <;> decide

/-- Every character of an `itoa` numeral is a decimal digit. -/
theorem itoa_digits (n : Nat) : (itoa n).all isDigitB = true := itoaAux_digits _ _

/-! ## The placeholder reindexer (reindex.go)

`reindex` is a single pass state machine over the fragment with states
`DEFAULT`, `PARAMETER`, `D_QUOTE`, `D_QUOTE_ESCAPE`, `S_QUOTE` and
`S_QUOTE_ESCAPE`, an output accumulator `result` and a digit
accumulator `capture`, transcribed case by case from the Go source.
-/

/-- The states of the reindexer, as named in the Go source. -/
inductive RState
  | DEFAULT
  | PARAMETER
  | D_QUOTE
  | D_QUOTE_ESCAPE
  | S_QUOTE
  | S_QUOTE_ESCAPE
deriving DecidableEq

/-- The mutable locals of the reindex loop: the state, the emitted
output and the captured digits of the current marker. -/
structure RMach where
  state : RState
  result : List Char
  capture : List Char

/-- The text emitted for a finished marker: `"$"`, extended with
`Itoa(base + Atoi(capture))` when any digits were captured.  The
captured value saturates at `MaxInt64` (`atoi`) and the addition is
Go's wrapping int64 addition (`wrap64`); `base` models the
non-negative in-range offset the builders pass. -/
def flushParam (base : Nat) (capture : List Char) : List Char :=
  '$' :: (if capture.length > 0 then itoaI (wrap64 (base + atoi capture)) else [])

/-- When the shifted value is representable, the marker is re-emitted
as the plain numeral of `base + Atoi(capture)`. -/
theorem flushParam_eq (base : Nat) (cap : List Char) (h : base + atoi cap ≤ maxInt64) :
    flushParam base cap = '$' :: (if cap.length > 0 then itoa (base + atoi cap) else []) := by
  unfold flushParam
  by_cases hc : cap.length > 0
  · rw [if_pos hc, if_pos hc, wrap64_eq_of_lt (by unfold maxInt64 at h; omega), itoaI_ofNat]
  · rw [if_neg hc, if_neg hc]

/-- One iteration of the reindex loop for one character, following the
Go `switch` case for case. -/
def rstep (base : Nat) (m : RMach) (c : Char) : RMach :=
  match m.state with
  | .DEFAULT =>
    if c = '\'' then ⟨.S_QUOTE, m.result ++ [c], m.capture⟩
    else if c = '"' then ⟨.D_QUOTE, m.result ++ [c], m.capture⟩
    else if c = '$' then ⟨.PARAMETER, m.result, m.capture⟩
    else ⟨.DEFAULT, m.result ++ [c], m.capture⟩
  | .PARAMETER =>
    if isDigitB c then ⟨.PARAMETER, m.result, m.capture ++ [c]⟩
    else ⟨.DEFAULT, m.result ++ flushParam base m.capture ++ [c], []⟩
  | .D_QUOTE =>
    if c = '\\' then ⟨.D_QUOTE_ESCAPE, m.result ++ [c], m.capture⟩
    else if c = '"' then ⟨.DEFAULT, m.result ++ [c], m.capture⟩
    else ⟨.D_QUOTE, m.result ++ [c], m.capture⟩
  | .D_QUOTE_ESCAPE => ⟨.D_QUOTE, m.result ++ [c], m.capture⟩
  | .S_QUOTE =>
    if c = '\\' then ⟨.S_QUOTE_ESCAPE, m.result ++ [c], m.capture⟩
    else if c = '\'' then ⟨.DEFAULT, m.result ++ [c], m.capture⟩
    else ⟨.S_QUOTE, m.result ++ [c], m.capture⟩
  | .S_QUOTE_ESCAPE => ⟨.S_QUOTE, m.result ++ [c], m.capture⟩

/-- The flush after the loop: a marker pending at end of input is
still emitted. -/
def rfinish (base : Nat) (m : RMach) : List Char :=
  if m.state = .PARAMETER then m.result ++ flushParam base m.capture else m.result

/-- `reindex` on the character list of the fragment. -/
def reindexL (s : List Char) (base : Nat) : List Char :=
  rfinish base (s.foldl (rstep base) ⟨.DEFAULT, [], []⟩)

/-- Model of `reindex` from reindex.go: update the index of argument
placeholders by `base`. -/
def reindex (s : String) (base : Nat) : String := String.mk (reindexL s.data base)

/-- Remaining output of the machine from a given state and capture, in
continuation style; equal to the accumulator loop by `reindexL_runFrom`. -/
def runFrom (base : Nat) : RState → List Char → List Char → List Char
  | st, cap, [] => if st = .PARAMETER then flushParam base cap else []
  | st, cap, c :: cs =>
    match st with
    | .DEFAULT =>
      if c = '\'' then c :: runFrom base .S_QUOTE cap cs
      else if c = '"' then c :: runFrom base .D_QUOTE cap cs
      else if c = '$' then runFrom base .PARAMETER cap cs
      else c :: runFrom base .DEFAULT cap cs
    | .PARAMETER =>
      if isDigitB c then runFrom base .PARAMETER (cap ++ [c]) cs
      else flushParam base cap ++ c :: runFrom base .DEFAULT [] cs
    | .D_QUOTE =>
      if c = '\\' then c :: runFrom base .D_QUOTE_ESCAPE cap cs
      else if c = '"' then c :: runFrom base .DEFAULT cap cs
      else c :: runFrom base .D_QUOTE cap cs
    | .D_QUOTE_ESCAPE => c :: runFrom base .D_QUOTE cap cs
    | .S_QUOTE =>
      if c = '\\' then c :: runFrom base .S_QUOTE_ESCAPE cap cs
      else if c = '\'' then c :: runFrom base .DEFAULT cap cs
      else c :: runFrom base .S_QUOTE cap cs
    | .S_QUOTE_ESCAPE => c :: runFrom base .S_QUOTE cap cs

theorem foldl_rstep_runFrom (base : Nat) (cs : List Char) :
    ∀ (st : RState) (cap res : List Char),
      rfinish base (cs.foldl (rstep base) ⟨st, res, cap⟩) = res ++ runFrom base st cap cs := by
  induction cs with
  | nil =>
    intro st cap res
    cases st <;> simp [rfinish, runFrom, List.foldl_nil]
  | cons c cs ih =>
    intro st cap res
    rw [List.foldl_cons]
    cases st with
    | DEFAULT =>
      by_cases h1 : c = '\''
      · simp [rstep, runFrom, h1, ih, List.append_assoc]
      · by_cases h2 : c = '"'
        · simp [rstep, runFrom, h1, h2, ih, List.append_assoc]
        · by_cases h3 : c = '$'
          · simp [rstep, runFrom, h1, h2, h3, ih]
          · simp [rstep, runFrom, h1, h2, h3, ih, List.append_assoc]
    | PARAMETER =>
      by_cases h1 : isDigitB c
      · simp [rstep, runFrom, h1, ih]
      · simp [rstep, runFrom, h1, ih, List.append_assoc]
    | D_QUOTE =>
      by_cases h1 : c = '\\'
      · simp [rstep, runFrom, h1, ih, List.append_assoc]
      · by_cases h2 : c = '"'
        · simp [rstep, runFrom, h1, h2, ih, List.append_assoc]
        · simp [rstep, runFrom, h1, h2, ih, List.append_assoc]
    | D_QUOTE_ESCAPE => simp [rstep, runFrom, ih, List.append_assoc]
    | S_QUOTE =>
      by_cases h1 : c = '\\'
      · simp [rstep, runFrom, h1, ih, List.append_assoc]
      · by_cases h2 : c = '\''
        · simp [rstep, runFrom, h1, h2, ih, List.append_assoc]
        · simp [rstep, runFrom, h1, h2, ih, List.append_assoc]
    | S_QUOTE_ESCAPE => simp [rstep, runFrom, ih, List.append_assoc]

/-- The accumulator loop of reindex equals the continuation form. -/
theorem reindexL_runFrom (s : List Char) (base : Nat) :
    reindexL s base = runFrom base .DEFAULT [] s := by
  simpa using foldl_rstep_runFrom base s .DEFAULT [] []

/-! ## Token level reading of a fragment

To state what reindexing does to a whole fragment, a fragment is read
as a sequence of tokens: plain characters, positional markers
(`$` with an optional run of digits) and quoted literals.  `render`
prints the tokens back to text and `shift` is the intended effect of
the reindexer: it adds the offset to the numeral of every marker and
leaves everything else alone.
-/

/-- A lexical token of a SQL fragment. -/
inductive Tok
  | ch (c : Char)
  | marker (ds : List Char)
  | dq (content : List Char)
  | sq (content : List Char)

/-- The text of one token. -/
def renderTok : Tok → List Char
  | .ch c => [c]
  | .marker ds => '$' :: ds
  | .dq content => '"' :: content ++ ['"']
  | .sq content => '\'' :: content ++ ['\'']

/-- The text of a token sequence. -/
def render : List Tok → List Char
  | [] => []
  | t :: ts => renderTok t ++ render ts

/-- The intended effect of reindexing on one token: the numeral of a
marker is replaced by the numeral of its value plus the offset, a
digit-less marker and every other token are unchanged. -/
def shiftTok (b : Nat) : Tok → Tok
  | .marker ds => .marker (if ds.length > 0 then itoa (b + atoi ds) else [])
  | t => t

/-- The intended effect of reindexing on a token sequence. -/
def shift (b : Nat) (ts : List Tok) : List Tok := ts.map (shiftTok b)

/-- A well formed quoted-literal body for quote character `q`: a
backslash escapes exactly the next character and `q` never occurs
unescaped (so the literal is closed only by its final quote). -/
def contentOk (q : Char) : List Char → Bool
  | [] => true
  | c :: cs =>
    if c = '\\' then
      match cs with
      | [] => false
      | _ :: cs2 => contentOk q cs2
    else !(c == q) && contentOk q cs

/-- A well formed token: a plain character is none of the three
characters that open a marker or a literal, a marker has only digits,
a literal body is `contentOk`. -/
def tokOk : Tok → Bool
  | .ch c => !(c == '$') && !(c == '"') && !(c == '\'')
  | .marker ds => ds.all isDigitB
  | .dq content => contentOk '"' content
  | .sq content => contentOk '\'' content

/-- What may follow a marker so that the marker ends where the token
does: the next token must begin with a character that is not a digit
(which would extend the numeral) and not `$`, `"` or `'`. -/
def nextOkAfterMarker : List Tok → Bool
  | [] => true
  | .ch c :: _ => !isDigitB c && !(c == '$') && !(c == '"') && !(c == '\'')
  | _ :: _ => false

/-- No marker of the sequence runs into the following token. -/
def noMerge : List Tok → Bool
  | [] => true
  | .marker _ :: ts => nextOkAfterMarker ts && noMerge ts
  | _ :: ts => noMerge ts

/-- A well formed token sequence. -/
def wfToks (ts : List Tok) : Bool := ts.all tokOk && noMerge ts

theorem wfToks_cons {t : Tok} {ts : List Tok} (h : wfToks (t :: ts) = true) :
    wfToks ts = true := by
  unfold wfToks at h ⊢
  rw [List.all_cons] at h
  cases t <;> simp only [noMerge] at h <;>
    simp only [Bool.and_eq_true] at h ⊢ <;>
    exact ⟨h.1.2, by tauto⟩

theorem wfToks_head {t : Tok} {ts : List Tok} (h : wfToks (t :: ts) = true) :
    tokOk t = true := by
  unfold wfToks at h
  rw [List.all_cons] at h
  simp only [Bool.and_eq_true] at h
  exact h.1.1

theorem wfToks_marker_next {ds : List Char} {ts : List Tok}
    (h : wfToks (.marker ds :: ts) = true) : nextOkAfterMarker ts = true := by
  unfold wfToks noMerge at h
  simp only [Bool.and_eq_true] at h
  exact h.2.1

/-- One token is in range for offset `b`: a marker's parsed value plus
`b` must stay at most `MaxInt64`, so Go's int64 addition of the offset
does not wrap; other tokens carry no number. -/
def tokInRange (b : Nat) : Tok → Bool
  | .marker ds => decide (b + atoi ds ≤ maxInt64)
  | _ => true

/-- Every marker of the sequence is in range for offset `b`. -/
def inRangeToks (b : Nat) (ts : List Tok) : Bool := ts.all (tokInRange b)

theorem inRangeToks_cons {b : Nat} {t : Tok} {ts : List Tok}
    (h : inRangeToks b (t :: ts) = true) : inRangeToks b ts = true := by
  unfold inRangeToks at h ⊢
  rw [List.all_cons, Bool.and_eq_true] at h
  exact h.2

theorem inRangeToks_marker {b : Nat} {ds : List Char} {ts : List Tok}
    (h : inRangeToks b (.marker ds :: ts) = true) : b + atoi ds ≤ maxInt64 := by
  unfold inRangeToks at h
  rw [List.all_cons, Bool.and_eq_true] at h
  have h1 := h.1
  unfold tokInRange at h1
  exact of_decide_eq_true h1


/-! Step equations of the machine, one per transition of the Go switch. -/

theorem runFrom_default_sq (b : Nat) (cap l : List Char) :
    runFrom b .DEFAULT cap ('\'' :: l) = '\'' :: runFrom b .S_QUOTE cap l := by
  simp [runFrom]

theorem runFrom_default_dq (b : Nat) (cap l : List Char) :
    runFrom b .DEFAULT cap ('"' :: l) = '"' :: runFrom b .D_QUOTE cap l := by
  simp [runFrom]

theorem runFrom_default_dollar (b : Nat) (cap l : List Char) :
    runFrom b .DEFAULT cap ('$' :: l) = runFrom b .PARAMETER cap l := by
  simp [runFrom]

theorem runFrom_default_ch (b : Nat) (cap l : List Char) {c : Char}
    (h1 : ¬c = '\'') (h2 : ¬c = '"') (h3 : ¬c = '$') :
    runFrom b .DEFAULT cap (c :: l) = c :: runFrom b .DEFAULT cap l := by
  simp [runFrom, h1, h2, h3]

theorem runFrom_param_digit (b : Nat) (cap l : List Char) {c : Char}
    (h : isDigitB c = true) :
    runFrom b .PARAMETER cap (c :: l) = runFrom b .PARAMETER (cap ++ [c]) l := by
  simp [runFrom, h]

theorem runFrom_param_term (b : Nat) (cap l : List Char) {c : Char}
    (h : isDigitB c = false) :
    runFrom b .PARAMETER cap (c :: l) = flushParam b cap ++ c :: runFrom b .DEFAULT [] l := by
  simp [runFrom, h]

theorem runFrom_dq_bs (b : Nat) (cap l : List Char) :
    runFrom b .D_QUOTE cap ('\\' :: l) = '\\' :: runFrom b .D_QUOTE_ESCAPE cap l := by
  simp [runFrom]

theorem runFrom_dq_close (b : Nat) (cap l : List Char) :
    runFrom b .D_QUOTE cap ('"' :: l) = '"' :: runFrom b .DEFAULT cap l := by
  simp [runFrom]

theorem runFrom_dq_ch (b : Nat) (cap l : List Char) {c : Char}
    (h1 : ¬c = '\\') (h2 : ¬c = '"') :
    runFrom b .D_QUOTE cap (c :: l) = c :: runFrom b .D_QUOTE cap l := by
  simp [runFrom, h1, h2]

theorem runFrom_dq_escape (b : Nat) (cap l : List Char) (c : Char) :
    runFrom b .D_QUOTE_ESCAPE cap (c :: l) = c :: runFrom b .D_QUOTE cap l := by
  simp [runFrom]

theorem runFrom_sq_bs (b : Nat) (cap l : List Char) :
    runFrom b .S_QUOTE cap ('\\' :: l) = '\\' :: runFrom b .S_QUOTE_ESCAPE cap l := by
  simp [runFrom]

theorem runFrom_sq_close (b : Nat) (cap l : List Char) :
    runFrom b .S_QUOTE cap ('\'' :: l) = '\'' :: runFrom b .DEFAULT cap l := by
  simp [runFrom]

theorem runFrom_sq_ch (b : Nat) (cap l : List Char) {c : Char}
    (h1 : ¬c = '\\') (h2 : ¬c = '\'') :
    runFrom b .S_QUOTE cap (c :: l) = c :: runFrom b .S_QUOTE cap l := by
  simp [runFrom, h1, h2]

theorem runFrom_sq_escape (b : Nat) (cap l : List Char) (c : Char) :
    runFrom b .S_QUOTE_ESCAPE cap (c :: l) = c :: runFrom b .S_QUOTE cap l := by
  simp [runFrom]

/-- Inside a double-quoted literal the machine echoes the body and the
closing quote and returns to `DEFAULT`; an escaped quote does not
close the literal. -/
theorem runFrom_dquote (b : Nat) :
    ∀ (n : Nat) (content : List Char), content.length ≤ n → contentOk '"' content = true →
      ∀ cap rest, runFrom b .D_QUOTE cap (content ++ '"' :: rest) =
        content ++ '"' :: runFrom b .DEFAULT cap rest := by
  intro n
  induction n with
  | zero =>
    intro content hlen _ cap rest
    have : content = [] := List.eq_nil_of_length_eq_zero (Nat.le_zero.mp hlen)
    subst this
    simpa using runFrom_dq_close b cap rest
  | succ n ih =>
    intro content hlen hok cap rest
    match content with
    | [] => simpa using runFrom_dq_close b cap rest
    | c :: cs =>
      by_cases hbs : c = '\\'
      · subst hbs
        match cs with
        | [] => simp [contentOk] at hok
        | c2 :: cs2 =>
          have hcs : contentOk '"' cs2 = true := by simpa [contentOk] using hok
          have hlen' : cs2.length ≤ n := by simp at hlen; omega
          rw [List.cons_append, List.cons_append, runFrom_dq_bs, runFrom_dq_escape,
            ih cs2 hlen' hcs cap rest]
          simp
      · have hok' : (!(c == '"') && contentOk '"' cs) = true := by
          have e : contentOk '"' (c :: cs) = (!(c == '"') && contentOk '"' cs) := by
            rw [contentOk.eq_def]
            simp [hbs]
          rw [e] at hok
          exact hok
        rw [Bool.and_eq_true] at hok'
        have hq : ¬(c = '"') := by simpa using hok'.1
        have hlen' : cs.length ≤ n := by simp at hlen; omega
        rw [List.cons_append, runFrom_dq_ch b cap _ hbs hq, ih cs hlen' hok'.2 cap rest]
        simp

/-- Inside a single-quoted literal the machine echoes the body and the
closing quote and returns to `DEFAULT`; an escaped quote does not
close the literal. -/
theorem runFrom_squote (b : Nat) :
    ∀ (n : Nat) (content : List Char), content.length ≤ n → contentOk '\'' content = true →
      ∀ cap rest, runFrom b .S_QUOTE cap (content ++ '\'' :: rest) =
        content ++ '\'' :: runFrom b .DEFAULT cap rest := by
  intro n
  induction n with
  | zero =>
    intro content hlen _ cap rest
    have : content = [] := List.eq_nil_of_length_eq_zero (Nat.le_zero.mp hlen)
    subst this
    simpa using runFrom_sq_close b cap rest
  | succ n ih =>
    intro content hlen hok cap rest
    match content with
    | [] => simpa using runFrom_sq_close b cap rest
    | c :: cs =>
      by_cases hbs : c = '\\'
      · subst hbs
        match cs with
        | [] => simp [contentOk] at hok
        | c2 :: cs2 =>
          have hcs : contentOk '\'' cs2 = true := by simpa [contentOk] using hok
          have hlen' : cs2.length ≤ n := by simp at hlen; omega
          rw [List.cons_append, List.cons_append, runFrom_sq_bs, runFrom_sq_escape,
            ih cs2 hlen' hcs cap rest]
          simp
      · have hok' : (!(c == '\'') && contentOk '\'' cs) = true := by
          have e : contentOk '\'' (c :: cs) = (!(c == '\'') && contentOk '\'' cs) := by
            rw [contentOk.eq_def]
            simp [hbs]
          rw [e] at hok
          exact hok
        rw [Bool.and_eq_true] at hok'
        have hq : ¬(c = '\'') := by simpa using hok'.1
        have hlen' : cs.length ≤ n := by simp at hlen; omega
        rw [List.cons_append, runFrom_sq_ch b cap _ hbs hq, ih cs hlen' hok'.2 cap rest]
        simp

/-- In the `PARAMETER` state a run of digits is captured whole. -/
theorem runFrom_digits (b : Nat) :
    ∀ (ds cap rest : List Char), ds.all isDigitB = true →
      runFrom b .PARAMETER cap (ds ++ rest) = runFrom b .PARAMETER (cap ++ ds) rest := by
  intro ds
  induction ds with
  | nil => intro cap rest _; simp
  | cons d ds ih =>
    intro cap rest hall
    rw [List.all_cons, Bool.and_eq_true] at hall
    rw [List.cons_append, runFrom_param_digit b cap _ hall.1, ih (cap ++ [d]) rest hall.2]
    simp

/-- Processing the rendered text of a well formed token sequence from
the `DEFAULT` state rewrites exactly the markers outside quotes. -/
theorem runFrom_render (b : Nat) :
    ∀ (n : Nat) (ts : List Tok), ts.length ≤ n → wfToks ts = true →
      inRangeToks b ts = true →
      runFrom b .DEFAULT [] (render ts) = render (shift b ts) := by
  intro n
  induction n with
  | zero =>
    intro ts hlen _ _
    have : ts = [] := List.eq_nil_of_length_eq_zero (Nat.le_zero.mp hlen)
    subst this
    simp [render, shift, runFrom]
  | succ n ih =>
    intro ts hlen hwf hrg
    match ts with
    | [] => simp [render, shift, runFrom]
    | .ch c :: ts2 =>
      have hc := wfToks_head hwf
      have hm : ¬c = '$' := by simp [tokOk] at hc; tauto
      have hd : ¬c = '"' := by simp [tokOk] at hc; tauto
      have hs : ¬c = '\'' := by simp [tokOk] at hc; tauto
      have hlen' : ts2.length ≤ n := by simp at hlen; omega
      have e : render (Tok.ch c :: ts2) = c :: render ts2 := by simp [render, renderTok]
      rw [e, runFrom_default_ch b [] _ hs hd hm,
        ih ts2 hlen' (wfToks_cons hwf) (inRangeToks_cons hrg)]
      simp [shift, shiftTok, render, renderTok]
    | .dq content :: ts2 =>
      have hc := wfToks_head hwf
      simp only [tokOk] at hc
      have hlen' : ts2.length ≤ n := by simp at hlen; omega
      have e : render (Tok.dq content :: ts2) = '"' :: (content ++ '"' :: render ts2) := by
        simp [render, renderTok]
      rw [e, runFrom_default_dq,
        runFrom_dquote b content.length content (Nat.le_refl _) hc [] (render ts2),
        ih ts2 hlen' (wfToks_cons hwf) (inRangeToks_cons hrg)]
      simp [shift, shiftTok, render, renderTok]
    | .sq content :: ts2 =>
      have hc := wfToks_head hwf
      simp only [tokOk] at hc
      have hlen' : ts2.length ≤ n := by simp at hlen; omega
      have e : render (Tok.sq content :: ts2) = '\'' :: (content ++ '\'' :: render ts2) := by
        simp [render, renderTok]
      rw [e, runFrom_default_sq,
        runFrom_squote b content.length content (Nat.le_refl _) hc [] (render ts2),
        ih ts2 hlen' (wfToks_cons hwf) (inRangeToks_cons hrg)]
      simp [shift, shiftTok, render, renderTok]
    | .marker ds :: ts2 =>
      have hd := wfToks_head hwf
      simp only [tokOk] at hd
      have hnext := wfToks_marker_next hwf
      have e : render (Tok.marker ds :: ts2) = '$' :: (ds ++ render ts2) := by
        simp [render, renderTok]
      rw [e, runFrom_default_dollar, runFrom_digits b ds [] (render ts2) hd, List.nil_append]
      match ts2 with
      | [] =>
        have hr := inRangeToks_marker hrg
        have e0 : runFrom b .PARAMETER ds (render ([] : List Tok)) = flushParam b ds := by
          simp [render, runFrom]
        rw [e0, flushParam_eq b ds hr]
        simp [shift, shiftTok, render, renderTok]
      | .ch c :: ts3 =>
        have hcd : isDigitB c = false := by
          simp only [nextOkAfterMarker, Bool.and_eq_true] at hnext
          simpa using hnext.1.1.1
        have hlen' : ts3.length ≤ n := by simp at hlen; omega
        have hwf3 : wfToks ts3 = true := wfToks_cons (wfToks_cons hwf)
        have e2 : render (Tok.ch c :: ts3) = c :: render ts3 := by simp [render, renderTok]
        rw [e2, runFrom_param_term b ds _ hcd,
          ih ts3 hlen' hwf3 (inRangeToks_cons (inRangeToks_cons hrg)),
          flushParam_eq b ds (inRangeToks_marker hrg)]
        simp [shift, shiftTok, render, renderTok]
      | .marker _ :: _ => simp [nextOkAfterMarker] at hnext
      | .dq _ :: _ => simp [nextOkAfterMarker] at hnext
      | .sq _ :: _ => simp [nextOkAfterMarker] at hnext

/-- `reindex` on the rendered text of a well formed token sequence
renders the shifted token sequence. -/
theorem reindex_render (ts : List Tok) (b : Nat) (h : wfToks ts = true)
    (hr : inRangeToks b ts = true) :
    reindex (String.mk (render ts)) b = String.mk (render (shift b ts)) := by
  show String.mk (reindexL (render ts) b) = _
  rw [reindexL_runFrom, runFrom_render b ts.length ts (Nat.le_refl _) h hr]

/-! ## Identity at offset zero

`wfM` is the well-formedness condition for `reindex(s, 0) == s`: every
run of digits directly after a `$` is the canonical decimal numeral
(no leading zeros) of an int64-representable value, so parsing it back
with Atoi neither normalizes nor saturates and rewriting it with
offset zero reproduces it.
-/

/-- The digit run at the front of a fragment. -/
def takeDigits (s : List Char) : List Char := s.takeWhile isDigitB

/-- The fragment after its front digit run. -/
def dropDigits (s : List Char) : List Char := s.dropWhile isDigitB

/-- A canonical digit run: empty, or exactly the numeral of its Atoi
value — which both rules out leading zeros and forces the value to be
int64-representable, since `atoi` saturates at `MaxInt64`. -/
def canonB (ds : List Char) : Bool := ds.isEmpty || ds == itoa (atoi ds)

/-- At one position: if a marker starts here, its digits are canonical. -/
def markerOkAt : List Char → Bool
  | '$' :: rest => canonB (takeDigits rest)
  | _ => true

/-- Well formed markers everywhere in the fragment. -/
def wfM (s : List Char) : Bool := s.tails.all markerOkAt

theorem wfM_tail {c : Char} {cs : List Char} (h : wfM (c :: cs) = true) : wfM cs = true := by
  unfold wfM at h ⊢
  rw [List.tails_cons, List.all_cons, Bool.and_eq_true] at h
  exact h.2

theorem wfM_head_dollar {cs : List Char} (h : wfM ('$' :: cs) = true) :
    canonB (takeDigits cs) = true := by
  unfold wfM at h
  rw [List.tails_cons, List.all_cons, Bool.and_eq_true] at h
  exact h.1

theorem wfM_dropWhile (p : Char → Bool) :
    ∀ {cs : List Char}, wfM cs = true → wfM (cs.dropWhile p) = true := by
  intro cs
  induction cs with
  | nil => intro h; exact h
  | cons c cs ih =>
    intro h
    rw [List.dropWhile_cons]
    by_cases hp : p c = true
    · rw [if_pos hp]
      exact ih (wfM_tail h)
    · rw [if_neg hp]
      exact h

theorem flushParam_zero_canon {cap : List Char} (h : canonB cap = true) :
    flushParam 0 cap = '$' :: cap := by
  match cap with
  | [] => rfl
  | c :: cs =>
    have hcan : (c :: cs) = itoa (atoi (c :: cs)) := by
      have h1 := h
      unfold canonB at h1
      simp only [List.isEmpty_cons, Bool.false_or, beq_iff_eq] at h1
      exact h1
    rw [flushParam_eq 0 (c :: cs) (by rw [Nat.zero_add]; exact atoi_le_max _)]
    rw [if_pos (by simp), Nat.zero_add, ← hcan]

/-- With offset zero the machine reproduces its input: the invariant is
that in the `PARAMETER` state the captured and upcoming digits form a
canonical numeral, and elsewhere the rest of the fragment is `wfM`. -/
theorem runFrom_zero :
    ∀ (cs : List Char) (st : RState) (cap : List Char),
      (st = .PARAMETER → canonB (cap ++ takeDigits cs) = true ∧ wfM (dropDigits cs) = true) →
      (st ≠ .PARAMETER → cap = [] ∧ wfM cs = true) →
      runFrom 0 st cap cs = (if st = .PARAMETER then '$' :: (cap ++ cs) else cs) := by
  intro cs
  induction cs with
  | nil =>
    intro st cap hp hn
    cases st with
    | PARAMETER =>
      have h := (hp rfl).1
      rw [takeDigits, List.takeWhile_nil, List.append_nil] at h
      simpa [runFrom] using flushParam_zero_canon h
    | DEFAULT => simp [runFrom]
    | D_QUOTE => simp [runFrom]
    | D_QUOTE_ESCAPE => simp [runFrom]
    | S_QUOTE => simp [runFrom]
    | S_QUOTE_ESCAPE => simp [runFrom]
  | cons c cs ih =>
    intro st cap hp hn
    cases st with
    | DEFAULT =>
      obtain ⟨hcap, hwf⟩ := hn (by simp)
      subst hcap
      by_cases h1 : c = '\''
      · subst h1
        rw [runFrom_default_sq, ih .S_QUOTE [] (by simp) (fun _ => ⟨rfl, wfM_tail hwf⟩)]
        simp
      · by_cases h2 : c = '"'
        · subst h2
          rw [runFrom_default_dq, ih .D_QUOTE [] (by simp) (fun _ => ⟨rfl, wfM_tail hwf⟩)]
          simp
        · by_cases h3 : c = '$'
          · subst h3
            rw [runFrom_default_dollar, ih .PARAMETER []
              (fun _ => ⟨by simpa using wfM_head_dollar hwf,
                wfM_dropWhile isDigitB (wfM_tail hwf)⟩) (by simp)]
            simp
          · rw [runFrom_default_ch 0 [] cs h1 h2 h3,
              ih .DEFAULT [] (by simp) (fun _ => ⟨rfl, wfM_tail hwf⟩)]
            simp
    | PARAMETER =>
      obtain ⟨hcanon, hdrop⟩ := hp rfl
      by_cases hd : isDigitB c = true
      · rw [takeDigits, List.takeWhile_cons_of_pos hd] at hcanon
        rw [dropDigits, List.dropWhile_cons_of_pos hd] at hdrop
        rw [runFrom_param_digit 0 cap cs hd,
          ih .PARAMETER (cap ++ [c])
            (fun _ => ⟨by simpa [List.append_assoc] using hcanon, hdrop⟩)
            (by simp)]
        simp
      · have hd' : isDigitB c = false := by simpa using hd
        rw [takeDigits, List.takeWhile_cons_of_neg (by simp [hd']), List.append_nil] at hcanon
        rw [dropDigits, List.dropWhile_cons_of_neg (by simp [hd'])] at hdrop
        rw [runFrom_param_term 0 cap cs hd',
          ih .DEFAULT [] (by simp) (fun _ => ⟨rfl, wfM_tail hdrop⟩),
          flushParam_zero_canon hcanon]
        simp
    | D_QUOTE =>
      obtain ⟨hcap, hwf⟩ := hn (by simp)
      subst hcap
      by_cases h1 : c = '\\'
      · subst h1
        rw [runFrom_dq_bs, ih .D_QUOTE_ESCAPE [] (by simp) (fun _ => ⟨rfl, wfM_tail hwf⟩)]
        simp
      · by_cases h2 : c = '"'
        · subst h2
          rw [runFrom_dq_close, ih .DEFAULT [] (by simp) (fun _ => ⟨rfl, wfM_tail hwf⟩)]
          simp
        · rw [runFrom_dq_ch 0 [] cs h1 h2,
            ih .D_QUOTE [] (by simp) (fun _ => ⟨rfl, wfM_tail hwf⟩)]
          simp
    | D_QUOTE_ESCAPE =>
      obtain ⟨hcap, hwf⟩ := hn (by simp)
      subst hcap
      rw [runFrom_dq_escape, ih .D_QUOTE [] (by simp) (fun _ => ⟨rfl, wfM_tail hwf⟩)]
      simp
    | S_QUOTE =>
      obtain ⟨hcap, hwf⟩ := hn (by simp)
      subst hcap
      by_cases h1 : c = '\\'
      · subst h1
        rw [runFrom_sq_bs, ih .S_QUOTE_ESCAPE [] (by simp) (fun _ => ⟨rfl, wfM_tail hwf⟩)]
        simp
      · by_cases h2 : c = '\''
        · subst h2
          rw [runFrom_sq_close, ih .DEFAULT [] (by simp) (fun _ => ⟨rfl, wfM_tail hwf⟩)]
          simp
        · rw [runFrom_sq_ch 0 [] cs h1 h2,
            ih .S_QUOTE [] (by simp) (fun _ => ⟨rfl, wfM_tail hwf⟩)]
          simp
    | S_QUOTE_ESCAPE =>
      obtain ⟨hcap, hwf⟩ := hn (by simp)
      subst hcap
      rw [runFrom_sq_escape, ih .S_QUOTE [] (by simp) (fun _ => ⟨rfl, wfM_tail hwf⟩)]
      simp

/-! ## Claims about the reindexer (C2, C6, C7) -/

/-- Claim C2 counterexample: the first non-digit character after a
parameter marker is NOT reprocessed under Default semantics.  On the
fragment `$1$2` with offset 1 the `$` that terminates the first marker
is emitted literally and does not begin a new marker, so the second
marker is left unshifted: `reindex "$1$2" 1 = "$2$2"`, whereas
reprocessing the terminator in the Default state would give `$2$3`. -/
theorem c2_counterexample :
    reindex "$1$2" 1 = "$2$2" ∧
    runFrom 1 .PARAMETER ['1'] ['$', '2'] ≠
      flushParam 1 ['1'] ++ runFrom 1 .DEFAULT [] ['$', '2'] ∧
    ("$2$2" : String) ≠ "$2$3" := by
  refine ⟨by decide, by decide, by decide⟩

/-- Claim C2 (amended): the first non-digit character after a
parameter marker ends the marker and is preserved in the output, but
it is emitted literally and only the remaining input is processed in
the Default state — the terminator itself is not reprocessed, so a `$`
terminator does not begin a new marker and a quote terminator does not
open a literal; a marker pending at end of input is still emitted. -/
theorem c2_param_terminator (b : Nat) :
    (∀ (cap : List Char) (c : Char) (cs : List Char), isDigitB c = false →
      runFrom b .PARAMETER cap (c :: cs) = flushParam b cap ++ c :: runFrom b .DEFAULT [] cs) ∧
    (∀ cap : List Char, runFrom b .PARAMETER cap [] = flushParam b cap) ∧
    (∀ ds : List Char, ds.all isDigitB = true →
      reindexL ('$' :: ds) b = flushParam b ds) := by
  refine ⟨fun cap c cs h => runFrom_param_term b cap cs h, fun cap => by simp [runFrom], ?_⟩
  intro ds h
  rw [reindexL_runFrom, runFrom_default_dollar]
  have := runFrom_digits b ds [] [] h
  rw [List.append_nil] at this
  rw [this]
  simp [runFrom]

/-- Witness for `c2_param_terminator` at concrete inputs. -/
theorem c2_param_terminator_witness :
    (isDigitB ' ' = false ∧ (['2'] : List Char).all isDigitB = true) ∧
    runFrom 7 .PARAMETER ['4'] [' ', 'x'] =
      flushParam 7 ['4'] ++ ' ' :: runFrom 7 .DEFAULT [] ['x'] ∧
    reindexL ['$', '2'] 7 = flushParam 7 ['2'] := by
  refine ⟨⟨by decide, by decide⟩, ?_, ?_⟩
  · exact (c2_param_terminator 7).1 ['4'] ' ' ['x'] (by decide)
  · exact (c2_param_terminator 7).2.2 ['2'] (by decide)

/-- Claim C6 counterexample: a marker inside a quoted literal is NOT
always left untouched, and the digit suffix is NOT always increased by
the offset.  In `$1"$2"` the opening quote is the terminator of the
first marker, so the machine never enters the quoted-literal state and
rewrites the quoted `$2` as well: `reindex "$1\"$2\"" 1 = "$2\"$3\""`,
while the claim demands `$2"$2"`.  And on a marker valued beyond
`MaxInt64` the discarded-range-error Atoi saturates and the int64
addition wraps: the suffix becomes `-9223372036854775808`, not the
value plus one. -/
theorem c6_counterexample :
    String.mk (render [Tok.marker ['1'], Tok.dq ['$', '2']]) = "$1\"$2\"" ∧
    String.mk (render (shift 1 [Tok.marker ['1'], Tok.dq ['$', '2']])) = "$2\"$2\"" ∧
    reindex "$1\"$2\"" 1 = "$2\"$3\"" ∧
    ("$2\"$3\"" : String) ≠ "$2\"$2\"" ∧
    reindex "$9999999999999999999999" 1 = "$-9223372036854775808" ∧
    ("$-9223372036854775808" : String) ≠ "$10000000000000000000000" := by
  refine ⟨by decide, by decide, by decide, by decide, by decide, by decide⟩

/-- Claim C6 (amended): for every fragment read as a well formed token
sequence in which no positional marker is immediately followed by a
digit, a `$` or a quote character, and whose marker values plus `b`
stay representable in the 64-bit int of `strconv.Atoi` (at most
`MaxInt64`), `reindex` with offset `b` replaces the digit suffix of
every marker outside quoted literals by the numeral of its value plus
`b`, passes digit-less markers through unchanged, leaves quoted
literals (including markers inside them, with backslash-escaped quotes
not closing the literal) untouched, and leaves all other characters
unchanged. -/
theorem c6_reindex_shift (ts : List Tok) (b : Nat) (h : wfToks ts = true)
    (hr : inRangeToks b ts = true) :
    reindex (String.mk (render ts)) b = String.mk (render (shift b ts)) :=
  reindex_render ts b h hr

/-- The token reading of the fragment `where cost = "$200"`. -/
def w6toks : List Tok := "where cost = ".data.map Tok.ch ++ [Tok.dq ('$' :: "200".data)]

/-- Witness for `c6_reindex_shift`: the quoted marker of
`where cost = "$200"` is untouched at offset 5. -/
theorem c6_reindex_shift_witness :
    wfToks w6toks = true ∧
    inRangeToks 5 w6toks = true ∧
    String.mk (render w6toks) = "where cost = \"$200\"" ∧
    reindex "where cost = \"$200\"" 5 = "where cost = \"$200\"" := by
  have h1 : wfToks w6toks = true := by decide
  have hr : inRangeToks 5 w6toks = true := by decide
  have h2 : String.mk (render w6toks) = "where cost = \"$200\"" := by decide
  have h3 : String.mk (render (shift 5 w6toks)) = "where cost = \"$200\"" := by decide
  refine ⟨h1, hr, h2, ?_⟩
  have h := c6_reindex_shift w6toks 5 h1 hr
  rw [h2] at h
  rw [h3] at h
  exact h

/-- Claim C7 counterexample: a fragment with a marker whose digits
have no leading zeros is not always reproduced at offset zero.  The
marker `$9999999999999999999999` is well formed in the claim's sense
(a `$` followed by digits without leading zeros), yet its value
exceeds `MaxInt64`: `strconv.Atoi` saturates at 9223372036854775807
and reindex.go discards the range error, so reindexing with offset
zero rewrites the marker. -/
theorem c7_counterexample :
    (("9999999999999999999999" : String).data.all isDigitB = true ∧
      ("9999999999999999999999" : String).data.head? ≠ some '0') ∧
    reindex "$9999999999999999999999" 0 = "$9223372036854775807" ∧
    ("$9223372036854775807" : String) ≠ "$9999999999999999999999" := by
  refine ⟨⟨by decide, by decide⟩, by decide, by decide⟩

/-- Claim C7 (amended): for every fragment whose positional markers
are well formed with int64-representable values (each digit run
directly after a `$` is the canonical numeral, without leading zeros,
of a value at most `MaxInt64` — or empty), reindexing with offset zero
is the identity. -/
theorem c7_reindex_zero_id (s : String) (h : wfM s.data = true) : reindex s 0 = s := by
  show String.mk (reindexL s.data 0) = s
  rw [reindexL_runFrom,
    runFrom_zero s.data .DEFAULT [] (by simp) (fun _ => ⟨rfl, h⟩)]
  simp

/-- Witness for `c7_reindex_zero_id` on a fragment with two markers. -/
theorem c7_reindex_zero_id_witness :
    wfM ("where a = $1 and b = $2").data = true ∧
    reindex "where a = $1 and b = $2" 0 = "where a = $1 and b = $2" :=
  ⟨by decide, c7_reindex_zero_id "where a = $1 and b = $2" (by decide)⟩

/-! ## The tag mini-language (misc.go)

`parseTag` splits the tag on `/`: the part before the first slash is
the column name, the remaining parts are the contexts in which the
field is excluded (compared case-insensitively); a tag without slash
is excluded everywhere exactly when it is the bare `-`.
-/

/-- Model of `strings.Split(tag, "/")`. -/
def splitSlash : List Char → List (List Char)
  | [] => [[]]
  | c :: rest =>
    if c = '/' then [] :: splitSlash rest
    else
      match splitSlash rest with
      | [] => [[c]]
      | g :: gs => (c :: g) :: gs

/-- ASCII lower-casing, model of `strings.ToLower` on the context
names (the contexts of the tag grammar are ASCII). -/
def toLowerC (c : Char) : Char :=
  if 'A' ≤ c ∧ c ≤ 'Z' then Char.ofNat (c.toNat + 32) else c

/-- Model of `parseTag` from misc.go: the column name and whether the
field is ignored in the given context. -/
def parseTag (tag context : String) : String × Bool :=
  match splitSlash tag.data with
  | [s] => (String.mk s, s == ['-'])
  | s :: rest => (String.mk s, rest.any (fun v => v.map toLowerC == context.data.map toLowerC))
  | [] => ("", false)

/-! ## Go values and record trees

Field values are modelled by `GoVal` (strings, ints, bools and
pointers, the types exercised by the repository); `isZero` is
`reflect.Value.IsZero`.  A record is a tree `UFList` of fields: a
field carries an optional `sql` tag and a value, and an anonymous
(embedded) sub-record is expanded in place by the builders, as
`recurseFields` does in the Go source.
-/

/-- The Go types of modelled field values. -/
inductive GoTy
  | str
  | int
  | bool
  | ptr (t : GoTy)
deriving DecidableEq

/-- A Go field value. -/
inductive GoVal
  | str (s : String)
  | int (n : Int)
  | bool (b : Bool)
  | ptrNil (t : GoTy)
  | ptrVal (t : GoTy) (v : GoVal)
deriving DecidableEq

/-- The type of a value. -/
def tyOfVal : GoVal → GoTy
  | .str _ => .str
  | .int _ => .int
  | .bool _ => .bool
  | .ptrNil t => .ptr t
  | .ptrVal t _ => .ptr t

/-- Model of `reflect.Value.IsZero`. -/
def isZero : GoVal → Bool
  | .str s => s == ""
  | .int n => n == 0
  | .bool b => b == false
  | .ptrNil _ => true
  | .ptrVal _ _ => false

mutual
/-- A struct field: a named field with an optional `sql` tag, or an
anonymous (embedded) sub-record. -/
inductive UF
  | fld (tag : Option String) (val : GoVal)
  | anon (sub : UFList)
/-- The ordered field list of a record type. -/
inductive UFList
  | nil
  | cons (head : UF) (tail : UFList)
end

mutual
/-- `recurseFields` on one field for a context: anonymous fields are
expanded depth-first, untagged fields are skipped, excluded tags are
skipped, otherwise the parsed column name and the value are kept. -/
def collectF (ctx : String) : UF → List (String × GoVal)
  | .anon sub => collectL ctx sub
  | .fld none _ => []
  | .fld (some tag) v =>
    let p := parseTag tag ctx
    if p.2 then [] else [(p.1, v)]
/-- `recurseFields` over a field list for a context. -/
def collectL (ctx : String) : UFList → List (String × GoVal)
  | .nil => []
  | .cons f rest => collectF ctx f ++ collectL ctx rest
end

mutual
/-- Go type identity on one field (tag and value type). -/
def tyEqF : UF → UF → Bool
  | .fld t1 v1, .fld t2 v2 => (t1 == t2) && (tyOfVal v1 == tyOfVal v2)
  | .anon s1, .anon s2 => tyEqL s1 s2
  | _, _ => false
/-- Go type identity on record types. -/
def tyEqL : UFList → UFList → Bool
  | .nil, .nil => true
  | .cons a as, .cons b bs => tyEqF a b && tyEqL as bs
  | _, _ => false
end

/-- Model of `strings.Join`. -/
def joinSep (sep : String) : List String → String
  | [] => ""
  | [s] => s
  | s :: rest => s ++ sep ++ joinSep sep rest

/-- Claim C10: for a field whose tag is `-` followed by a context
list, `parseTag` excludes the field exactly in the listed contexts
(case-insensitively) and otherwise includes it under the literal
column name `-`; the bare tag `-` excludes in every context. -/
theorem c10_parseTag (tag context : String) :
    (∀ r rs, splitSlash tag.data = ('-' :: []) :: r :: rs →
      parseTag tag context =
        ("-", (r :: rs).any (fun v => v.map toLowerC == context.data.map toLowerC))) ∧
    (∀ ctx : String, parseTag "-" ctx = ("-", true)) ∧
    parseTag "-/insert" "update" = ("-", false) ∧
    parseTag "-/insert" "insert" = ("-", true) := by
  refine ⟨?_, ?_, by decide, by decide⟩
  · intro r rs h
    unfold parseTag
    rw [h]
  · intro ctx
    unfold parseTag
    have h : splitSlash ("-").data = [['-']] := by decide
    rw [h]
    exact rfl

/-- Witness for the parseTag claim: the split of the tag consisting
of a dash followed by slash-insert, and the resulting inclusion in the
`select` context. -/
theorem c10_parseTag_witness :
    splitSlash ("-/insert").data = ('-' :: []) :: ("insert").data :: [] ∧
    parseTag "-/insert" "select" =
      ("-", (("insert").data :: []).any
        (fun v => v.map toLowerC == ("select").data.map toLowerC)) ∧
    parseTag "-/insert" "select" = ("-", false) := by
  have h : splitSlash ("-/insert").data = ('-' :: []) :: ("insert").data :: [] := by decide
  refine ⟨h, (c10_parseTag "-/insert" "select").1 ("insert").data [] h, by decide⟩

/-! ## The UPDATE builder (update.go)

`UpdatePendingSet.Set` walks the record with `recurseFields`, skipping
untagged fields, fields excluded in the `update` context and fields at
their zero value; an empty SET list is the `no fields to update`
error.
-/

mutual
/-- The SET collection of `UpdatePendingSet.Set` on one field: like
`collectF` in the `update` context, but zero values are also skipped. -/
def collectSetF : UF → List (String × GoVal)
  | .anon sub => collectSetL sub
  | .fld none _ => []
  | .fld (some tag) v =>
    let p := parseTag tag "update"
    if p.2 then [] else if isZero v then [] else [(p.1, v)]
/-- The SET collection of `UpdatePendingSet.Set` over a field list. -/
def collectSetL : UFList → List (String × GoVal)
  | .nil => []
  | .cons f rest => collectSetF f ++ collectSetL rest
end

mutual
theorem collectSetF_eq : ∀ f : UF,
    collectSetF f = (collectF "update" f).filter (fun p => !isZero p.2)
  | .anon sub => by
    show collectSetL sub = (collectL "update" sub).filter (fun p => !isZero p.2)
    exact collectSetL_eq sub
  | .fld none v => rfl
  | .fld (some tag) v => by
    show (if (parseTag tag "update").2 then []
          else if isZero v then [] else [((parseTag tag "update").1, v)]) =
        (if (parseTag tag "update").2 then []
          else [((parseTag tag "update").1, v)]).filter (fun p => !isZero p.2)
    by_cases hig : (parseTag tag "update").2 = true
    · simp [hig]
    · by_cases hz : isZero v = true
      · simp [hig, hz]
      · simp [hig, hz]
theorem collectSetL_eq : ∀ l : UFList,
    collectSetL l = (collectL "update" l).filter (fun p => !isZero p.2)
  | .nil => rfl
  | .cons f rest => by
    show collectSetF f ++ collectSetL rest =
      (collectF "update" f ++ collectL "update" rest).filter (fun p => !isZero p.2)
    rw [List.filter_append, collectSetF_eq f, collectSetL_eq rest]
end

/-- The outcome of a successful `Set`: the joined SET fragment and the
SET arguments, the `set` and `args` fields of `UpdatePendingWhere`. -/
structure UpdatePendingWhereM where
  set : String
  args : List GoVal
deriving DecidableEq

/-- Model of `UpdatePendingSet.Set` from update.go. -/
def updateSet (u : UFList) : Except String UpdatePendingWhereM :=
  let pairs := collectSetL u
  if pairs.length < 1 then .error "no fields to update"
  else .ok ⟨joinSep ", " (pairs.map (fun p => p.1 ++ " = ?")), pairs.map Prod.snd⟩

/-- Claim C5: `Set` fails with the no-fields-to-update error exactly
when every included field (tagged and not excluded in the `update`
context) is at its zero value; otherwise it succeeds and the SET list
holds exactly the non-zero included fields in declaration order, with
their values as the arguments. -/
theorem c5_update_set (u : UFList) :
    (updateSet u = Except.error "no fields to update" ↔
      ∀ p ∈ collectL "update" u, isZero p.2 = true) ∧
    (∀ w, updateSet u = Except.ok w →
      w.set = joinSep ", " (((collectL "update" u).filter (fun p => !isZero p.2)).map
        (fun p => p.1 ++ " = ?")) ∧
      w.args = ((collectL "update" u).filter (fun p => !isZero p.2)).map Prod.snd) := by
  have key : collectSetL u = (collectL "update" u).filter (fun p => !isZero p.2) :=
    collectSetL_eq u
  constructor
  · constructor
    · intro herr
      unfold updateSet at herr
      by_cases hlen : (collectSetL u).length < 1
      · have hnil : collectSetL u = [] := by
          cases hcs : collectSetL u with
          | nil => rfl
          | cons a as => rw [hcs] at hlen; simp at hlen
        rw [key] at hnil
        intro p hp
        by_contra hnz
        have : p ∈ ([] : List (String × GoVal)) := by
          rw [← hnil]
          exact List.mem_filter.mpr ⟨hp, by simpa using hnz⟩
        simp at this
      · rw [if_neg hlen] at herr
        exact absurd herr (by simp)
    · intro hall
      have hnil : (collectL "update" u).filter (fun p => !isZero p.2) = [] := by
        rw [List.filter_eq_nil_iff]
        intro p hp
        simpa using hall p hp
      unfold updateSet
      rw [key, hnil]
      rfl
  · intro w hok
    unfold updateSet at hok
    by_cases hlen : (collectSetL u).length < 1
    · rw [if_pos hlen] at hok
      exact absurd hok (by simp)
    · rw [if_neg hlen] at hok
      have hw := (Except.ok.injEq _ _).mp hok.symm
      rw [hw]
      rw [key]
      exact ⟨rfl, rfl⟩

/-- A record with one zero string field, for the witness. -/
def u5zero : UFList := UFList.cons (UF.fld (some "a") (GoVal.str "")) UFList.nil

/-- A record with a zero and a non-zero field, for the witness. -/
def u5mix : UFList :=
  UFList.cons (UF.fld (some "a") (GoVal.str ""))
    (UFList.cons (UF.fld (some "b") (GoVal.int 5)) UFList.nil)

/-- Witness for `c5_update_set`: the all-zero record fails, the mixed
record keeps exactly its non-zero field. -/
theorem c5_update_set_witness :
    updateSet u5zero = Except.error "no fields to update" ∧
    (UpdatePendingWhereM.mk "b = ?" [GoVal.int 5]).set =
      joinSep ", " (((collectL "update" u5mix).filter (fun p => !isZero p.2)).map
        (fun p => p.1 ++ " = ?")) ∧
    (UpdatePendingWhereM.mk "b = ?" [GoVal.int 5]).args =
      ((collectL "update" u5mix).filter (fun p => !isZero p.2)).map Prod.snd := by
  have h2 := (c5_update_set u5mix).2 ⟨"b = ?", [GoVal.int 5]⟩ (by rfl)
  exact ⟨(c5_update_set u5zero).1.mpr (by decide), h2.1, h2.2⟩

/-! ## The UPDATE builder with a WHERE fragment (C3)

The dollar-placeholder `update` builder (`update`/`preUpdate`) is not
among the source files; only its test `TestUpdateStatementWithWhere`
is.  `updateGo` below is modelled from the spec and that test.
-/

/-- A pending UPDATE: statement text and arguments. -/
structure PreUpdate where
  statement : String
  args : List GoVal
deriving DecidableEq

/-- The SET fragment with placeholders numbered consecutively from
`i`: `a = $i, b = $(i+1), ...`. -/
def setFrag (i : Nat) : List (String × GoVal) → String
  | [] => ""
  | [p] => p.1 ++ " = $" ++ String.mk (itoa i)
  | p :: rest => p.1 ++ " = $" ++ String.mk (itoa i) ++ ", " ++ setFrag (i + 1) rest

/-- Modelled from the spec: the `update`/`preUpdate` builder of the
dollar-placeholder variant is missing from the source files; only its
test `TestUpdateStatementWithWhere` (update_test.go) remains.
Following the spec's builder structure and that test's expected
output, the builder collects the SET fields exactly like `Set`,
numbers their placeholders from 1 and shifts them with the Reindexer
by the number of WHERE arguments, keeps the WHERE fragment as written,
and passes the WHERE arguments before the SET arguments. -/
def updateGo (table : String) (rec : UFList) (whereS : String) (whereArgs : List GoVal) :
    Except String PreUpdate :=
  if (collectSetL rec).length < 1 then .error "no fields to update"
  else .ok ⟨"UPDATE " ++ table ++ " SET " ++
      reindex (setFrag 1 (collectSetL rec)) whereArgs.length ++ " WHERE " ++ whereS,
    whereArgs ++ (collectSetL rec).map Prod.snd⟩

/-- The record of `TestUpdateStatementWithWhere`: one field
tagged `a` with value 2. -/
def rec3 : UFList := UFList.cons (UF.fld (some "a") (GoVal.int 2)) UFList.nil

/-- Claim C3 counterexample: on the input of
`TestUpdateStatementWithWhere` — record `{a: 2}`, WHERE fragment
`a = $1` with argument 1 — the builder produces
`UPDATE T SET a = $2 WHERE a = $1` with arguments `[1, 2]`: the WHERE
placeholder keeps its number, the SET placeholder is shifted, and the
WHERE argument comes first, the opposite of the claim (SET numbered
1..k, WHERE shifted by k, arguments SET before WHERE). -/
theorem c3_counterexample :
    updateGo "T" rec3 "a = $1" [GoVal.int 1] =
      Except.ok ⟨"UPDATE T SET a = $2 WHERE a = $1", [GoVal.int 1, GoVal.int 2]⟩ ∧
    reindex "a = $1" 1 = "a = $2" ∧
    ([GoVal.int 1, GoVal.int 2] : List GoVal) ≠ [GoVal.int 2] ++ [GoVal.int 1] ∧
    ("UPDATE T SET a = $2 WHERE a = $1" : String) ≠
      "UPDATE T SET a = $1 WHERE " ++ reindex "a = $1" 1 := by
  refine ⟨by rfl, by decide, by decide, by decide⟩

/-- Characters allowed in a modelled column name: anything except the
marker and quote characters. -/
def safeCh (c : Char) : Bool := !(c == '$') && !(c == '"') && !(c == '\'')

/-- Plain-character tokens of a string. -/
def chToks (s : String) : List Tok := s.data.map Tok.ch

/-- The token reading of the SET fragment `setFrag i pairs`. -/
def setToks (i : Nat) : List (String × GoVal) → List Tok
  | [] => []
  | [p] => chToks (p.1 ++ " = ") ++ [Tok.marker (itoa i)]
  | p :: rest =>
    chToks (p.1 ++ " = ") ++ (Tok.marker (itoa i) :: (chToks ", " ++ setToks (i + 1) rest))

theorem render_append (as bs : List Tok) : render (as ++ bs) = render as ++ render bs := by
  induction as with
  | nil => simp [render]
  | cons t ts ih => simp [render, ih]

theorem render_chToks (s : String) : render (chToks s) = s.data := by
  show render (s.data.map Tok.ch) = s.data
  induction s.data with
  | nil => rfl
  | cons c cs ih => simp [render, renderTok, ih]

theorem itoa_ne_nil (n : Nat) : itoa n ≠ [] := by
  unfold itoa itoaAux
  by_cases h : n < 10
  · simp [h]
  · simp [h]

theorem render_setToks (i : Nat) (pairs : List (String × GoVal)) :
    render (setToks i pairs) = (setFrag i pairs).data := by
  induction pairs generalizing i with
  | nil => rfl
  | cons p rest ih =>
    cases rest with
    | nil =>
      show render (chToks (p.1 ++ " = ") ++ [Tok.marker (itoa i)]) =
        (p.1 ++ " = $" ++ String.mk (itoa i)).data
      rw [render_append, render_chToks]
      simp [render, renderTok, String.data_append]
    | cons q rest2 =>
      show render (chToks (p.1 ++ " = ") ++
          (Tok.marker (itoa i) :: (chToks ", " ++ setToks (i + 1) (q :: rest2)))) =
        (p.1 ++ " = $" ++ String.mk (itoa i) ++ ", " ++ setFrag (i + 1) (q :: rest2)).data
      rw [render_append]
      simp only [render]
      simp [renderTok, render_chToks, ih, String.data_append]

theorem noMerge_chToks_append (s : String) (ts : List Tok) :
    noMerge (chToks s ++ ts) = noMerge ts := by
  show noMerge (s.data.map Tok.ch ++ ts) = noMerge ts
  induction s.data with
  | nil => rfl
  | cons c cs ih => simpa [noMerge] using ih

theorem all_tokOk_chList (l : List Char) (h : ∀ c ∈ l, safeCh c = true) :
    (l.map Tok.ch).all tokOk = true := by
  induction l with
  | nil => rfl
  | cons c cs ih =>
    rw [List.map_cons, List.all_cons, Bool.and_eq_true]
    refine ⟨?_, ih (fun d hd => h d (by simp [hd]))⟩
    have := h c (by simp)
    unfold safeCh at this
    simpa [tokOk] using this

theorem wfToks_chMarker_cons (s : String) (ds : List Char) (ts : List Tok)
    (hs : ∀ c ∈ s.data, safeCh c = true) (hds : ds.all isDigitB = true)
    (hnext : nextOkAfterMarker ts = true) (hts : wfToks ts = true) :
    wfToks (chToks s ++ Tok.marker ds :: ts) = true := by
  unfold wfToks at hts ⊢
  rw [Bool.and_eq_true] at hts
  rw [Bool.and_eq_true]
  constructor
  · rw [List.all_append, Bool.and_eq_true]
    refine ⟨all_tokOk_chList s.data hs, ?_⟩
    rw [List.all_cons, Bool.and_eq_true]
    exact ⟨by simpa [tokOk] using hds, hts.1⟩
  · rw [noMerge_chToks_append]
    show (nextOkAfterMarker ts && noMerge ts) = true
    rw [Bool.and_eq_true]
    exact ⟨hnext, hts.2⟩

theorem wfToks_setToks (i : Nat) (pairs : List (String × GoVal))
    (hsafe : ∀ p ∈ pairs, ∀ c ∈ (p.1 : String).data, safeCh c = true) :
    wfToks (setToks i pairs) = true := by
  induction pairs generalizing i with
  | nil => rfl
  | cons p rest ih =>
    have hp : ∀ c ∈ (p.1 ++ " = ").data, safeCh c = true := by
      intro c hc
      rw [String.data_append] at hc
      rcases List.mem_append.mp hc with h | h
      · exact hsafe p (by simp) c h
      · fin_cases h <;> decide
    cases rest with
    | nil =>
      show wfToks (chToks (p.1 ++ " = ") ++ Tok.marker (itoa i) :: []) = true
      exact wfToks_chMarker_cons _ _ [] hp (itoa_digits i) rfl rfl
    | cons q rest2 =>
      show wfToks (chToks (p.1 ++ " = ") ++
        Tok.marker (itoa i) :: (chToks ", " ++ setToks (i + 1) (q :: rest2))) = true
      refine wfToks_chMarker_cons _ _ _ hp (itoa_digits i) rfl ?_
      have hrest : wfToks (setToks (i + 1) (q :: rest2)) = true :=
        ih (i + 1) (fun r hr => hsafe r (by simp [hr]))
      unfold wfToks at hrest ⊢
      rw [Bool.and_eq_true] at hrest
      rw [Bool.and_eq_true]
      constructor
      · rw [List.all_append, Bool.and_eq_true]
        exact ⟨by decide, hrest.1⟩
      · rw [noMerge_chToks_append]
        exact hrest.2

theorem strMkData (s : String) : String.mk s.data = s := by
  obtain ⟨d⟩ := s
  rfl

theorem shift_append (b : Nat) (as bs : List Tok) :
    shift b (as ++ bs) = shift b as ++ shift b bs := List.map_append _ _ _

theorem shift_cons (b : Nat) (t : Tok) (ts : List Tok) :
    shift b (t :: ts) = shiftTok b t :: shift b ts := rfl

theorem shift_chToks (b : Nat) (s : String) : shift b (chToks s) = chToks s := by
  show shift b (s.data.map Tok.ch) = s.data.map Tok.ch
  induction s.data with
  | nil => rfl
  | cons c cs ih => simpa [shift, shiftTok] using ih

theorem render_shift_setToks (b : Nat) (pairs : List (String × GoVal)) :
    ∀ i, b + i + pairs.length ≤ maxInt64 + 1 →
      render (shift b (setToks i pairs)) = (setFrag (i + b) pairs).data := by
  induction pairs with
  | nil => intro i _; rfl
  | cons p rest ih =>
    intro i hb
    have hile : i ≤ maxInt64 := by simp at hb; omega
    have hmark : shiftTok b (Tok.marker (itoa i)) = Tok.marker (itoa (b + i)) := by
      show Tok.marker (if (itoa i).length > 0 then itoa (b + atoi (itoa i)) else []) =
        Tok.marker (itoa (b + i))
      rw [if_pos (by simpa using List.length_pos.mpr (itoa_ne_nil i)), atoi_itoa_of_le hile]
    cases rest with
    | nil =>
      show render (shift b (chToks (p.1 ++ " = ") ++ [Tok.marker (itoa i)])) =
        (p.1 ++ " = $" ++ String.mk (itoa (i + b))).data
      rw [shift_append, shift_chToks, shift_cons, hmark, render_append, render_chToks]
      simp [shift, render, renderTok, String.data_append, Nat.add_comm b i]
    | cons q rest2 =>
      show render (shift b (chToks (p.1 ++ " = ") ++
          (Tok.marker (itoa i) :: (chToks ", " ++ setToks (i + 1) (q :: rest2))))) =
        (p.1 ++ " = $" ++ String.mk (itoa (i + b)) ++ ", " ++
          setFrag (i + b + 1) (q :: rest2)).data
      rw [shift_append, shift_chToks, shift_cons, hmark, shift_append, shift_chToks,
        render_append, render_chToks]
      simp only [render, List.map_nil, List.append_eq, List.nil_append]
      rw [ih (i + 1) (by simp at hb ⊢; omega)]
      have h1 : i + 1 + b = i + b + 1 := by omega
      rw [h1]
      simp [renderTok, String.data_append, Nat.add_comm b i]

theorem inRange_chToks (b : Nat) (s : String) : (chToks s).all (tokInRange b) = true := by
  show (s.data.map Tok.ch).all (tokInRange b) = true
  induction s.data with
  | nil => rfl
  | cons c cs ih => simpa [tokInRange] using ih

theorem inRange_setToks (b : Nat) (pairs : List (String × GoVal)) :
    ∀ i, b + i + pairs.length ≤ maxInt64 + 1 →
      inRangeToks b (setToks i pairs) = true := by
  induction pairs with
  | nil => intro i _; rfl
  | cons p rest ih =>
    intro i hb
    have hile : i ≤ maxInt64 := by simp at hb; omega
    have hmr : tokInRange b (Tok.marker (itoa i)) = true := by
      unfold tokInRange
      rw [decide_eq_true_eq, atoi_itoa_of_le hile]
      simp at hb
      omega
    cases rest with
    | nil =>
      show inRangeToks b (chToks (p.1 ++ " = ") ++ Tok.marker (itoa i) :: []) = true
      unfold inRangeToks
      rw [List.all_append, Bool.and_eq_true]
      refine ⟨inRange_chToks b _, ?_⟩
      rw [List.all_cons, Bool.and_eq_true]
      exact ⟨hmr, rfl⟩
    | cons q rest2 =>
      show inRangeToks b (chToks (p.1 ++ " = ") ++
        Tok.marker (itoa i) :: (chToks ", " ++ setToks (i + 1) (q :: rest2))) = true
      unfold inRangeToks
      rw [List.all_append, Bool.and_eq_true]
      refine ⟨inRange_chToks b _, ?_⟩
      rw [List.all_cons, Bool.and_eq_true]
      refine ⟨hmr, ?_⟩
      rw [List.all_append, Bool.and_eq_true]
      refine ⟨inRange_chToks b _, ?_⟩
      exact ih (i + 1) (by simp at hb ⊢; omega)

/-- Reindexing a SET fragment that numbers its placeholders from 1
shifts every placeholder by the offset, provided the shifted indices
stay int64-representable. -/
theorem reindex_setFrag (pairs : List (String × GoVal)) (m : Nat)
    (hsafe : ∀ p ∈ pairs, ∀ c ∈ (p.1 : String).data, safeCh c = true)
    (hk : m + pairs.length ≤ maxInt64) :
    reindex (setFrag 1 pairs) m = setFrag (m + 1) pairs := by
  have h1 : setFrag 1 pairs = String.mk (render (setToks 1 pairs)) := by
    rw [render_setToks]
  rw [h1, reindex_render (setToks 1 pairs) m (wfToks_setToks 1 pairs hsafe)
      (inRange_setToks m pairs 1 (by omega)),
    render_shift_setToks m pairs 1 (by omega), Nat.add_comm 1 m]

/-- Claim C3 (amended): for an Update built from a record with
non-zero SET fields and a WHERE fragment with its own arguments, the
WHERE placeholders keep their caller numbering, the SET placeholders
are shifted by the number of WHERE arguments via the Reindexer (so
they are numbered m+1, m+2, ... after the m WHERE arguments), and the
final argument list is the WHERE arguments followed by the SET
arguments, in that order.  The shifted indices m+k must be
int64-representable — Go cannot build an argument slice or field list
anywhere near that size. -/
theorem c3_update_where (table whereS : String) (rec : UFList) (whereArgs : List GoVal)
    (hne : collectSetL rec ≠ [])
    (hsafe : ∀ p ∈ collectSetL rec, ∀ c ∈ (p.1 : String).data, safeCh c = true)
    (hrange : whereArgs.length + (collectSetL rec).length ≤ maxInt64) :
    updateGo table rec whereS whereArgs =
      Except.ok ⟨"UPDATE " ++ table ++ " SET " ++
          setFrag (whereArgs.length + 1) (collectSetL rec) ++ " WHERE " ++ whereS,
        whereArgs ++ (collectSetL rec).map Prod.snd⟩ := by
  unfold updateGo
  rw [if_neg (by simpa [Nat.lt_one_iff, List.length_eq_zero] using hne)]
  rw [reindex_setFrag (collectSetL rec) whereArgs.length hsafe hrange]

/-- Witness for `c3_update_where` at the input of
`TestUpdateStatementWithWhere`. -/
theorem c3_update_where_witness :
    (collectSetL rec3 ≠ [] ∧
      (∀ p ∈ collectSetL rec3, ∀ c ∈ (p.1 : String).data, safeCh c = true) ∧
      ([GoVal.int 1] : List GoVal).length + (collectSetL rec3).length ≤ maxInt64) ∧
    updateGo "T" rec3 "a = $1" [GoVal.int 1] =
      Except.ok ⟨"UPDATE " ++ "T" ++ " SET " ++
          setFrag (([GoVal.int 1] : List GoVal).length + 1) (collectSetL rec3) ++
          " WHERE " ++ "a = $1",
        [GoVal.int 1] ++ (collectSetL rec3).map Prod.snd⟩ :=
  ⟨⟨by decide, by decide, by decide⟩,
    c3_update_where "T" "a = $1" rec3 [GoVal.int 1] (by decide) (by decide) (by decide)⟩

/-! ## The INSERT builder (insert.go)

`insert` collects the columns of the first record with
`recurseFields` in the `insert` context, builds the row-major argument
list, and formats `insert into <table>(<cols>) values<tuples>`.  The
placeholder tuple is built once with `repeatWithIndex("$", ", ", k)`
and then repeated for every record with `repeat`.
-/

/-- The tail of the `repeat` loop of misc.go: each further iteration
appends the separator and the value. -/
def repeatTail (s sep : String) : Nat → String
  | 0 => ""
  | n + 1 => sep ++ s ++ repeatTail s sep n

/-- Model of `repeat` from misc.go. -/
def repeatSep (s sep : String) : Nat → String
  | 0 => ""
  | n + 1 => s ++ repeatTail s sep n

/-- The tail of the `repeatWithIndex` loop of insert.go, continuing
from index `i`. -/
def repeatWithIndexTail (pre sep : String) : Nat → Nat → String
  | 0, _ => ""
  | k + 1, i => sep ++ pre ++ String.mk (itoa i) ++ repeatWithIndexTail pre sep k (i + 1)

/-- Model of `repeatWithIndex` from insert.go: `$1, $2, ..., $n`. -/
def repeatWithIndex (pre sep : String) (n : Nat) : String :=
  match n with
  | 0 => ""
  | k + 1 => pre ++ String.mk (itoa 1) ++ repeatWithIndexTail pre sep k 2

/-- A built INSERT: statement text and row-major arguments
(`preInsert` in insert.go). -/
structure PreInsert where
  statement : String
  args : List GoVal
deriving DecidableEq

/-- Model of `insert` from insert.go on a non-scalar input (the
records of the `values` slice).  Columns are resolved from the first
record; every record must have the first record's type. -/
def insertGo (table : String) (vs : List UFList) : Except String PreInsert :=
  match vs with
  | [] => .error "no values given"
  | v0 :: rest =>
    if (v0 :: rest).any (fun v => !tyEqL v0 v) then .error "type mismatch"
    else if (collectL "insert" v0).length < 1 then .error "no columns available for insert"
    else
      let argset := ((v0 :: rest).map (fun v => (collectL "insert" v).map Prod.snd)).flatten
      let placeholders := repeatWithIndex "$" ", " (collectL "insert" v0).length
      let value := "(" ++ placeholders ++ ")"
      let valueList := repeatSep value ", " (argset.length / (collectL "insert" v0).length)
      .ok ⟨"insert into " ++ table ++ "(" ++
          joinSep ", " ((collectL "insert" v0).map Prod.fst) ++ ") values" ++ valueList,
        argset⟩

/-- The first record of the doc-comment example of `Insert`:
`val{1, "test"}` for `type val struct {A int sql:id; B string sql:b}`. -/
def rec1v : UFList :=
  UFList.cons (UF.fld (some "id") (GoVal.int 1))
    (UFList.cons (UF.fld (some "b") (GoVal.str "test")) UFList.nil)

/-- The second record of the doc-comment example: `val{2, "test"}`. -/
def rec2v : UFList :=
  UFList.cons (UF.fld (some "id") (GoVal.int 2))
    (UFList.cons (UF.fld (some "b") (GoVal.str "test")) UFList.nil)

/-- Claim C1, evaluated at the failing input: on the two records of
the doc-comment example of `Insert`, the builder repeats the same
placeholder tuple `($1, $2)` for both records — the statement promised
by the doc comment and the claim, `values($1, $2), ($3, $4)` with
fresh sequential placeholders per tuple, differs from what the code
produces. -/
theorem c1_insert_doc_divergence :
    insertGo "X" [rec1v, rec2v] =
      Except.ok ⟨"insert into X(id, b) values($1, $2), ($1, $2)",
        [GoVal.int 1, GoVal.str "test", GoVal.int 2, GoVal.str "test"]⟩ ∧
    ("insert into X(id, b) values($1, $2), ($1, $2)" : String) ≠
      "insert into X(id, b) values($1, $2), ($3, $4)" := by
  refine ⟨by rfl, by decide⟩

/-! ## The row mapper / aggregator (scan.go)

For a slice-of-struct destination each incoming physical row is
scanned into a fresh target: the values of the matched non-slice
columns are its key tuple (`keys`), the matched slice columns are
scanned into nullable holders (`aggs`, `none` for NULL).  The loop
over the already-produced records appends each non-null holder value
to every record with an equal key tuple; if none matched, the target
becomes a new record whose slice fields hold a singleton for a
non-null holder and are empty otherwise.
-/

/-- One incoming physical row, already matched to the destination
type: key-column values and nullable repeated-column holders. -/
structure SRow where
  keys : List GoVal
  aggs : List (Option GoVal)
deriving DecidableEq

/-- One produced output record: key-field values and the contents of
its repeated (slice) fields. -/
structure SRec where
  keys : List GoVal
  aggs : List (List GoVal)
deriving DecidableEq

/-- The inner aggregation of one matching record: each non-null
holder value is appended to the corresponding slice field in place. -/
def aggAppend (r : SRec) (vals : List (Option GoVal)) : SRec :=
  ⟨r.keys, List.zipWith (fun ex v => match v with | some x => ex ++ [x] | none => ex) r.aggs vals⟩

/-- The record materialized from an unmatched row: key values, and a
singleton or empty list per repeated field. -/
def newRec (row : SRow) : SRec := ⟨row.keys, row.aggs.map Option.toList⟩

/-- The `rows:` loop of Scan: walk the produced records, aggregate the
row into every record whose keys all match, and report whether any
matched. -/
def aggregateLoop (row : SRow) : List SRec → List SRec × Bool
  | [] => ([], false)
  | r :: rest =>
    if r.keys = row.keys then
      (aggAppend r row.aggs :: (aggregateLoop row rest).1, true)
    else
      (r :: (aggregateLoop row rest).1, (aggregateLoop row rest).2)

/-- One iteration of Scan's row loop for a slice destination: the
aggregation loop runs only when there are repeated columns, and an
unaggregated row is appended as a new record. -/
def scanStep (v : List SRec) (row : SRow) : List SRec :=
  let res := if row.aggs.length > 0 then aggregateLoop row v else (v, false)
  if res.2 then res.1 else res.1 ++ [newRec row]

/-- Scan's row loop over all rows of the cursor, for a slice
destination starting from its current contents. -/
def scanFold (v : List SRec) (rows : List SRow) : List SRec := rows.foldl scanStep v

/-- The per-row update of the scalar (non-slice) destination: the
matched non-slice columns are scanned directly into the destination,
the repeated-column holders are discarded. -/
def scanFirst (dest : SRec) (row : SRow) : SRec := ⟨row.keys, dest.aggs⟩

/-- Scan for a scalar destination: consume the first row only and
populate the destination from it; with no rows at all, fail with
`sql.ErrNoRows`. -/
def scanScalar (dest : SRec) (rows : List SRow) : Except String SRec :=
  match rows with
  | [] => .error "sql: no rows in result set"
  | row :: _ => .ok (scanFirst dest row)

theorem aggregateLoop_eq (row : SRow) (v : List SRec) :
    aggregateLoop row v =
      (v.map (fun r => if r.keys = row.keys then aggAppend r row.aggs else r),
        v.any (fun r => decide (r.keys = row.keys))) := by
  induction v with
  | nil => rfl
  | cons r rest ih =>
    by_cases h : r.keys = row.keys
    · simp [aggregateLoop, h, ih]
    · simp [aggregateLoop, h, ih]

/-- Claim C4: for a slice-of-struct destination with repeated fields,
a row whose key tuple matches an already-produced record appends its
non-null holder values to that record's slice fields in place and
creates no new record; a row with a fresh key tuple appends a new
record whose slice fields are a singleton for non-null values and
empty otherwise; the three-row aggregation example produces exactly
`{"one", ["group1","group2"]}` and `{"two", []}`. -/
theorem c4_scan_aggregates (v : List SRec) (row : SRow) (hagg : 0 < row.aggs.length) :
    ((∃ r ∈ v, r.keys = row.keys) →
      scanStep v row = v.map (fun r => if r.keys = row.keys then aggAppend r row.aggs else r)) ∧
    ((¬∃ r ∈ v, r.keys = row.keys) → scanStep v row = v ++ [newRec row]) ∧
    scanFold []
        [⟨[GoVal.str "one"], [some (GoVal.str "group1")]⟩,
         ⟨[GoVal.str "one"], [some (GoVal.str "group2")]⟩,
         ⟨[GoVal.str "two"], [none]⟩] =
      [⟨[GoVal.str "one"], [[GoVal.str "group1", GoVal.str "group2"]]⟩,
       ⟨[GoVal.str "two"], [[]]⟩] := by
  refine ⟨?_, ?_, by rfl⟩
  · intro hex
    unfold scanStep
    rw [if_pos hagg, aggregateLoop_eq]
    have hany : (v.any fun r => decide (r.keys = row.keys)) = true := by
      rw [List.any_eq_true]
      obtain ⟨r, hr, hk⟩ := hex
      exact ⟨r, hr, by simpa using hk⟩
    simp [hany]
  · intro hnone
    unfold scanStep
    rw [if_pos hagg, aggregateLoop_eq]
    have hany : (v.any fun r => decide (r.keys = row.keys)) = false := by
      rw [List.any_eq_false]
      intro r hr
      simp only [decide_eq_true_eq]
      exact fun hk => hnone ⟨r, hr, hk⟩
    have hmap : (v.map fun r => if r.keys = row.keys then aggAppend r row.aggs else r) = v := by
      rw [List.any_eq_false] at hany
      have : ∀ r ∈ v, (if r.keys = row.keys then aggAppend r row.aggs else r) = r := by
        intro r hr
        rw [if_neg]
        simpa using hany r hr
      calc List.map (fun r => if r.keys = row.keys then aggAppend r row.aggs else r) v
          = List.map id v := List.map_congr_left this
        _ = v := List.map_id v
    simp [hany, hmap]

/-- Witness for `c4_scan_aggregates`: a matching row aggregates in
place, a fresh row appends a new record. -/
theorem c4_scan_aggregates_witness :
    (0 < ([some (GoVal.int 7)] : List (Option GoVal)).length ∧
      (∃ r ∈ [(⟨[GoVal.int 1], [[]]⟩ : SRec)], r.keys = [GoVal.int 1]) ∧
      ¬∃ r ∈ [(⟨[GoVal.int 1], [[]]⟩ : SRec)], r.keys = [GoVal.int 2]) ∧
    scanStep [⟨[GoVal.int 1], [[]]⟩] ⟨[GoVal.int 1], [some (GoVal.int 7)]⟩ =
      ([(⟨[GoVal.int 1], [[]]⟩ : SRec)].map
        (fun r => if r.keys = [GoVal.int 1] then aggAppend r [some (GoVal.int 7)] else r)) ∧
    scanStep [⟨[GoVal.int 1], [[]]⟩] ⟨[GoVal.int 2], [some (GoVal.int 7)]⟩ =
      [⟨[GoVal.int 1], [[]]⟩] ++ [newRec ⟨[GoVal.int 2], [some (GoVal.int 7)]⟩] := by
  refine ⟨⟨by decide, by decide, by decide⟩, ?_, ?_⟩
  · exact (c4_scan_aggregates [⟨[GoVal.int 1], [[]]⟩] ⟨[GoVal.int 1], [some (GoVal.int 7)]⟩
      (by decide)).1 (by decide)
  · exact (c4_scan_aggregates [⟨[GoVal.int 1], [[]]⟩] ⟨[GoVal.int 2], [some (GoVal.int 7)]⟩
      (by decide)).2.1 (by decide)

/-- Claim C8: a Scan into a scalar destination fails with the NoRows
error on an empty cursor; with one or more rows only the first row is
consumed (the result does not depend on the remaining rows), the
destination is populated from it, and the call succeeds. -/
theorem c8_scan_scalar (dest : SRec) :
    scanScalar dest [] = Except.error "sql: no rows in result set" ∧
    (∀ (row : SRow) (rest : List SRow),
      scanScalar dest (row :: rest) = Except.ok ⟨row.keys, dest.aggs⟩ ∧
      scanScalar dest (row :: rest) = scanScalar dest [row]) := by
  exact ⟨rfl, fun row rest => ⟨rfl, rfl⟩⟩

/-- One produced record extends another: same keys, and every slice
field of the first is an initial segment of the second's. -/
def AggExtend (a b : SRec) : Prop :=
  b.keys = a.keys ∧ List.Forall₂ (fun x y => ∃ e, y = x ++ e) a.aggs b.aggs

theorem aggExtend_refl (a : SRec) : AggExtend a a :=
  ⟨rfl, (List.forall₂_same).mpr (fun x _ => ⟨[], by simp⟩)⟩

theorem forall2_append_trans {a b c : List (List GoVal)}
    (h1 : List.Forall₂ (fun x y => ∃ e, y = x ++ e) a b)
    (h2 : List.Forall₂ (fun x y => ∃ e, y = x ++ e) b c) :
    List.Forall₂ (fun x y => ∃ e, y = x ++ e) a c := by
  induction h1 generalizing c with
  | nil =>
    cases h2
    exact List.Forall₂.nil
  | cons hxy hrest ih =>
    cases h2 with
    | cons hyz hrest2 =>
      obtain ⟨e1, he1⟩ := hxy
      obtain ⟨e2, he2⟩ := hyz
      exact List.Forall₂.cons ⟨e1 ++ e2, by rw [he2, he1, List.append_assoc]⟩ (ih hrest2)

theorem aggExtend_trans {a b c : SRec} (h1 : AggExtend a b) (h2 : AggExtend b c) :
    AggExtend a c :=
  ⟨h2.1.trans h1.1, forall2_append_trans h1.2 h2.2⟩

theorem forall2_zipWith_ext :
    ∀ (xs : List (List GoVal)) (vs : List (Option GoVal)), xs.length = vs.length →
      List.Forall₂ (fun x y => ∃ e, y = x ++ e) xs
        (List.zipWith (fun ex v => match v with | some a => ex ++ [a] | none => ex) xs vs) := by
  intro xs
  induction xs with
  | nil => intro vs _; exact List.Forall₂.nil
  | cons x xs ih =>
    intro vs hlen
    cases vs with
    | nil => simp at hlen
    | cons v vs =>
      rw [List.zipWith_cons_cons]
      refine List.Forall₂.cons ?_ (ih vs (by simpa using hlen))
      cases v with
      | none => exact ⟨[], by simp⟩
      | some a => exact ⟨[a], rfl⟩

theorem aggAppend_extend (r : SRec) (vals : List (Option GoVal))
    (hlen : r.aggs.length = vals.length) : AggExtend r (aggAppend r vals) :=
  ⟨rfl, forall2_zipWith_ext r.aggs vals hlen⟩

theorem scanStep_wf (A : Nat) (v : List SRec) (row : SRow)
    (hv : ∀ r ∈ v, r.aggs.length = A) (hrow : row.aggs.length = A) :
    ∀ r ∈ scanStep v row, r.aggs.length = A := by
  intro r hr
  unfold scanStep at hr
  by_cases hg : row.aggs.length > 0
  · rw [if_pos hg, aggregateLoop_eq] at hr
    by_cases hf : (v.any fun t => decide (t.keys = row.keys)) = true
    · simp only [hf, if_pos] at hr
      obtain ⟨t, ht, hrt⟩ := List.mem_map.mp hr
      by_cases hk : t.keys = row.keys
      · rw [if_pos hk] at hrt
        rw [← hrt]
        show (List.zipWith _ t.aggs row.aggs).length = A
        rw [List.length_zipWith, hv t ht, hrow]
        simp
      · rw [if_neg hk] at hrt
        rw [← hrt]
        exact hv t ht
    · simp only [hf, if_neg, Bool.false_eq_true, not_false_iff] at hr
      rcases List.mem_append.mp hr with h | h
      · obtain ⟨t, ht, hrt⟩ := List.mem_map.mp h
        by_cases hk : t.keys = row.keys
        · rw [if_pos hk] at hrt
          rw [← hrt]
          show (List.zipWith _ t.aggs row.aggs).length = A
          rw [List.length_zipWith, hv t ht, hrow]
          simp
        · rw [if_neg hk] at hrt
          rw [← hrt]
          exact hv t ht
      · rw [List.mem_singleton.mp h]
        show (row.aggs.map Option.toList).length = A
        rw [List.length_map, hrow]
  · rw [if_neg hg] at hr
    rcases List.mem_append.mp hr with h | h
    · exact hv r h
    · rw [List.mem_singleton.mp h]
      show (row.aggs.map Option.toList).length = A
      rw [List.length_map, hrow]

theorem scanStep_frame (A : Nat) (v : List SRec) (row : SRow)
    (hv : ∀ r ∈ v, r.aggs.length = A) (hrow : row.aggs.length = A) :
    v.length ≤ (scanStep v row).length ∧
    ∀ i, i < v.length → ∃ r₀ r₁, v.get? i = some r₀ ∧
      (scanStep v row).get? i = some r₁ ∧ AggExtend r₀ r₁ := by
  have hmap : ∀ i, i < v.length → ∃ r₀ r₁, v.get? i = some r₀ ∧
      ((v.map fun r => if r.keys = row.keys then aggAppend r row.aggs else r).get? i = some r₁) ∧
      AggExtend r₀ r₁ := by
    intro i hi
    have hr₀ : v.get? i = some (v.get ⟨i, hi⟩) := List.get?_eq_get hi
    refine ⟨v.get ⟨i, hi⟩,
      if (v.get ⟨i, hi⟩).keys = row.keys then aggAppend (v.get ⟨i, hi⟩) row.aggs
        else v.get ⟨i, hi⟩, hr₀, ?_, ?_⟩
    · rw [List.get?_map, hr₀]
      rfl
    · by_cases hk : (v.get ⟨i, hi⟩).keys = row.keys
      · rw [if_pos hk]
        exact aggAppend_extend _ row.aggs (by rw [hv _ (List.get?_mem hr₀), hrow])
      · rw [if_neg hk]
        exact aggExtend_refl _
  unfold scanStep
  by_cases hg : row.aggs.length > 0
  · rw [if_pos hg, aggregateLoop_eq]
    by_cases hf : (v.any fun t => decide (t.keys = row.keys)) = true
    · simp only [hf, if_pos]
      exact ⟨by rw [List.length_map], hmap⟩
    · simp only [hf, if_neg, Bool.false_eq_true, not_false_iff]
      constructor
      · rw [List.length_append, List.length_map]
        omega
      · intro i hi
        obtain ⟨r₀, r₁, h0, h1, hext⟩ := hmap i hi
        refine ⟨r₀, r₁, h0, ?_, hext⟩
        rw [List.get?_append (by rw [List.length_map]; exact hi)]
        exact h1
  · rw [if_neg hg]
    constructor
    · show v.length ≤ (v ++ [newRec row]).length
      rw [List.length_append]
      omega
    · intro i hi
      have hr₀ : v.get? i = some (v.get ⟨i, hi⟩) := List.get?_eq_get hi
      refine ⟨v.get ⟨i, hi⟩, v.get ⟨i, hi⟩, hr₀, ?_, aggExtend_refl _⟩
      show (v ++ [newRec row]).get? i = _
      rw [List.get?_append hi]
      exact hr₀

theorem scanFold_frame (A : Nat) :
    ∀ (rows : List SRow) (init : List SRec),
      (∀ r ∈ init, r.aggs.length = A) → (∀ row ∈ rows, row.aggs.length = A) →
      init.length ≤ (scanFold init rows).length ∧
      ∀ i, i < init.length → ∃ r₀ r₁, init.get? i = some r₀ ∧
        (scanFold init rows).get? i = some r₁ ∧ AggExtend r₀ r₁ := by
  intro rows
  induction rows with
  | nil =>
    intro init hinit _
    refine ⟨Nat.le_refl _, fun i hi => ?_⟩
    have hr₀ : init.get? i = some (init.get ⟨i, hi⟩) := List.get?_eq_get hi
    exact ⟨init.get ⟨i, hi⟩, init.get ⟨i, hi⟩, hr₀, hr₀, aggExtend_refl _⟩
  | cons row rows ih =>
    intro init hinit hrows
    have hrow : row.aggs.length = A := hrows row (by simp)
    have hstep := scanStep_frame A init row hinit hrow
    have hwf : ∀ r ∈ scanStep init row, r.aggs.length = A :=
      scanStep_wf A init row hinit hrow
    have hfold := ih (scanStep init row) hwf (fun t ht => hrows t (by simp [ht]))
    have heq : scanFold init (row :: rows) = scanFold (scanStep init row) rows := rfl
    rw [heq]
    constructor
    · exact Nat.le_trans hstep.1 hfold.1
    · intro i hi
      obtain ⟨r₀, r₁, h0, h1, hext₁⟩ := hstep.2 i hi
      obtain ⟨s₁, s₂, hs1, hs2, hext₂⟩ := hfold.2 i (Nat.lt_of_lt_of_le hi hstep.1)
      rw [h1] at hs1
      cases hs1
      exact ⟨r₀, s₂, h0, hs2, aggExtend_trans hext₁ hext₂⟩

/-- Claim C9: scanning into a slice destination that already holds
records never removes, replaces or reorders them — every pre-existing
record keeps its position and keys and its slice fields only grow by
appended values, new records are appended after them — and a row
whose key tuple matches an existing record is aggregated in place
without creating a new record. -/
theorem c9_scan_frame (A : Nat) (init : List SRec) (rows : List SRow)
    (hinit : ∀ r ∈ init, r.aggs.length = A) (hrows : ∀ row ∈ rows, row.aggs.length = A) :
    init.length ≤ (scanFold init rows).length ∧
    (∀ i, i < init.length → ∃ r₀ r₁, init.get? i = some r₀ ∧
      (scanFold init rows).get? i = some r₁ ∧ r₁.keys = r₀.keys ∧
      List.Forall₂ (fun x y => ∃ e, y = x ++ e) r₀.aggs r₁.aggs) ∧
    (∀ (w : List SRec) (row : SRow), 0 < row.aggs.length →
      (∃ r ∈ w, r.keys = row.keys) → (scanStep w row).length = w.length) := by
  have hfold := scanFold_frame A rows init hinit hrows
  refine ⟨hfold.1, ?_, ?_⟩
  · intro i hi
    obtain ⟨r₀, r₁, h0, h1, hext⟩ := hfold.2 i hi
    exact ⟨r₀, r₁, h0, h1, hext.1, hext.2⟩
  · intro w row hg hex
    unfold scanStep
    rw [if_pos hg, aggregateLoop_eq]
    have hany : (w.any fun t => decide (t.keys = row.keys)) = true := by
      rw [List.any_eq_true]
      obtain ⟨r, hr, hk⟩ := hex
      exact ⟨r, hr, by simpa using hk⟩
    simp only [hany, if_pos]
    rw [List.length_map]

/-- Witness for `c9_scan_frame` on a one-record slice and
one aggregating row. -/
theorem c9_scan_frame_witness :
    ((∀ r ∈ [(⟨[GoVal.int 1], [[]]⟩ : SRec)], r.aggs.length = 1) ∧
      (∀ row ∈ [(⟨[GoVal.int 1], [some (GoVal.int 3)]⟩ : SRow)], row.aggs.length = 1)) ∧
    ([(⟨[GoVal.int 1], [[]]⟩ : SRec)].length ≤
      (scanFold [(⟨[GoVal.int 1], [[]]⟩ : SRec)]
        [(⟨[GoVal.int 1], [some (GoVal.int 3)]⟩ : SRow)]).length) :=
  ⟨⟨by decide, by decide⟩,
    (c9_scan_frame 1 [⟨[GoVal.int 1], [[]]⟩]
      [⟨[GoVal.int 1], [some (GoVal.int 3)]⟩] (by decide) (by decide)).1⟩

end Sqlh
